import Mathlib

/-!
Shallow embedding of the core rewriting engine of the item-map-web
repository (`src/map_items.py` and `src/webtool/app.py`): the
MappingIndex construction (`load_mapping`), the multi-tier token
resolver (`map_token`) and the cell rewriter (`transform_cell`).
Strings are modelled as `List Char`; Python dicts as association
lists in first-insertion order where an insert of an existing key
replaces the value in place (`dinsert`), matching CPython dict
semantics; raw cell values as the `Value` type below.
-/

/-- A raw spreadsheet cell value as seen by the Python code: `None`,
a string, an `int`, or a `float`.  Only integral floats are modelled
(`vFloat n` stands for the float with exact integer value `n`): the
only falsy float is `0.0`, which is integral, and `str(int(v))` is the
rendering the source applies to integral floats; non-integral floats
never arise in any claim. -/
inductive Value where
  | vNone : Value
  | vStr : List Char → Value
  | vInt : Int → Value
  | vFloat : Int → Value
deriving DecidableEq

/-- Python truthiness test `not text` restricted to `Value`:
`None`, `''`, `0` and `0.0` are falsy. -/
def falsy : Value → Bool
  | .vNone => true
  | .vStr s => s.isEmpty
  | .vInt n => n == 0
  | .vFloat n => n == 0

/-- `to_text` from the source: `None` renders as `''`, ints via `str`,
integral floats via `str(int(v))`, strings unchanged. -/
def to_text : Value → List Char
  | .vNone => []
  | .vStr s => s
  | .vInt n => (toString n).data
  | .vFloat n => (toString n).data

/-- Characters stripped by Python `str.strip()` (the ASCII whitespace
set, which covers every input relevant here). -/
def isPySpace (c : Char) : Bool :=
  c == ' ' || c == '\t' || c == '\n' || c == '\r' || c == '\x0b' || c == '\x0c'

/-- Python `str.strip()`: drop leading and trailing whitespace. -/
def strip (l : List Char) : List Char :=
  ((l.dropWhile isPySpace).reverse.dropWhile isPySpace).reverse

/-- Python `s.startswith(p)`. -/
def startsWith : List Char → List Char → Bool
  | [], _ => true
  | _ :: _, [] => false
  | p :: ps, c :: cs => p == c && startsWith ps cs

/-- `digits_only` from the source: keep only the digit characters. -/
def digits_only (s : List Char) : List Char :=
  s.filter Char.isDigit

/-- A Python `Dict[str, str]` in first-insertion order. -/
abbrev Dict := List (List Char × List Char)

/-- Dict lookup: the first binding of the key (keys are unique in any
dict produced by `dinsert`). -/
def dlookup : Dict → List Char → Option (List Char)
  | [], _ => none
  | (k, v) :: rest, key => if key = k then some v else dlookup rest key

/-- Dict assignment `m[k] = v`: replace in place if the key exists
(keeping its position, as CPython does), otherwise append. -/
def dinsert : Dict → List Char → List Char → Dict
  | [], k, v => [(k, v)]
  | (k', v') :: rest, k, v =>
    if k = k' then (k, v) :: rest else (k', v') :: dinsert rest k v

/-- The combined test `c in m and m[c] != ''` used by `map_token`,
returning the value on success. -/
def lookupNonEmpty (m : Dict) (k : List Char) : Option (List Char) :=
  match dlookup m k with
  | some n => if n.isEmpty then none else some n
  | none => none

/-- The candidate loop of `map_token`: for each candidate check the
exact index, then the digits index; first non-empty hit wins. -/
def candLoop : List (List Char) → Dict → Dict → Option (List Char)
  | [], _, _ => none
  | c :: cs, m, md =>
    match lookupNonEmpty m c with
    | some n => some n
    | none =>
      match lookupNonEmpty md c with
      | some n => some n
      | none => candLoop cs m md

/-- `map_token` from `src/map_items.py` lines 93-111: direct hit in the
exact index, else candidates `d`, and when `len(d)` is 3 or 4 also
`'66'+d` and `'6'+d`, each checked against the exact then the digits
index. -/
def map_token (token : List Char) (m md : Dict) : List Char × Bool :=
  match lookupNonEmpty m token with
  | some n => (n, true)
  | none =>
    let d := digits_only token
    let candidates :=
      if d.isEmpty then []
      else d :: (if d.length = 3 ∨ d.length = 4 then ['6' :: '6' :: d, '6' :: d] else [])
    match candLoop candidates m md with
    | some n => (n, true)
    | none => (token, false)

/-- Python `sep.join(parts)` for a single-character separator. -/
def joinSep (c : Char) : List (List Char) → List Char
  | [] => []
  | [p] => p
  | p :: ps => p ++ c :: joinSep c ps

/-- Python `s.split(c)` for a single-character separator: never empty,
`''.split(c) = ['']`. -/
def splitOnChar (sep : Char) : List Char → List (List Char)
  | [] => [[]]
  | c :: rest =>
    if c = sep then [] :: splitOnChar sep rest
    else
      match splitOnChar sep rest with
      | [] => [[c]]
      | t :: ts => (c :: t) :: ts

/-- Segment separator characters of the mini-syntax. -/
def isSepChar (c : Char) : Bool := c == '&' || c == '|'

/-- The membership test `tk in ('&', '|')` of the rewriting loop. -/
def isSepTok (tk : List Char) : Bool := tk == ['&'] || tk == ['|']

/-- `re.split(r'([&|])', body)`: split on `&` and `|`, keeping each
separator as its own element in its original position. -/
def splitSep : List Char → List (List Char)
  | [] => [[]]
  | c :: rest =>
    if isSepChar c then [] :: [c] :: splitSep rest
    else
      match splitSep rest with
      | [] => [[c]]
      | t :: ts => (c :: t) :: ts

/-- The per-segment token loop of `transform_cell`: resolve each
identifier token, counting misses. -/
def mapTokens : List (List Char) → Dict → Dict → List (List Char) × Nat
  | [], _, _ => ([], 0)
  | t :: ts, m, md =>
    let nh := map_token t m md
    let r := mapTokens ts m md
    (nh.1 :: r.1, (if nh.2 then 0 else 1) + r.2)

/-- One segment of `transform_cell` (lines 137-151 of
`src/map_items.py`): split off `$`-suffixes, split the id part on `-`
discarding empty pieces, resolve the tokens and reassemble. -/
def processSeg (seg : List Char) (m md : Dict) : List Char × Nat :=
  let parts := splitOnChar '$' seg
  let ids_part := parts.headD []
  let suffix_parts := parts.tail
  let id_tokens := (splitOnChar '-' ids_part).filter (fun t => !t.isEmpty)
  let r := mapTokens id_tokens m md
  let new_ids := if id_tokens.isEmpty then ids_part else joinSep '-' r.1
  let new_seg :=
    new_ids ++ (if suffix_parts.isEmpty then [] else '$' :: joinSep '$' suffix_parts)
  (new_seg, r.2)

/-- The element loop of `transform_cell`: separators pass through,
empty elements are skipped, segments are rewritten. -/
def processTokens : List (List Char) → Dict → Dict → List (List Char) × Nat
  | [], _, _ => ([], 0)
  | tk :: rest, m, md =>
    if isSepTok tk then
      let r := processTokens rest m md
      (tk :: r.1, r.2)
    else if tk.isEmpty then processTokens rest m md
    else
      let s := processSeg tk m md
      let r := processTokens rest m md
      (s.1 :: r.1, s.2 + r.2)

/-- The body rewriting core of `transform_cell`: tokenize, rewrite,
join. -/
def rewriteBody (body : List Char) (m md : Dict) : List Char × Nat :=
  let r := processTokens (splitSep body) m md
  (r.1.flatten, r.2)

/-- `transform_cell` from `src/map_items.py` lines 114-154: falsy cells
short-circuit; otherwise normalize to text, strip, remove the prefix
when present, rewrite the body and optionally restore the prefix. -/
def transform_cell (text : Value) (keepPfx : Bool) (pfx : List Char) (m md : Dict) :
    Value × Nat :=
  if falsy text then (text, 0)
  else
    let s := strip (to_text text)
    let body := if startsWith pfx s then s.drop pfx.length else s
    let r := rewriteBody body m md
    (Value.vStr (if keepPfx then pfx ++ r.1 else r.1), r.2)

/-- One row of the mapping-loading loop: trim id and name, skip empty
ids, assign into the exact index. -/
def insertEntry (m : Dict) (e : Value × Value) : Dict :=
  let k := strip (to_text e.1)
  let n := strip (to_text e.2)
  if k.isEmpty then m else dinsert m k n

/-- The exact index `id_to_name` built by `load_mapping`. -/
def build_exact (entries : List (Value × Value)) : Dict :=
  entries.foldl insertEntry []

/-- The digits index: the dict comprehension
`{digits_only(k): v for k, v in id_to_name.items() if digits_only(k)}`,
iterating the exact index in insertion order. -/
def build_digits (m : Dict) : Dict :=
  m.foldl
    (fun md kv => if (digits_only kv.1).isEmpty then md else dinsert md (digits_only kv.1) kv.2)
    []

/-- `load_mapping` restricted to its pure core: build the exact and
digits indexes from the (already extracted) sequence of raw
(id, name) cell pairs. -/
def load_mapping (entries : List (Value × Value)) : Dict × Dict :=
  (build_exact entries, build_digits (build_exact entries))

/-- `map_token` from `src/webtool/app.py` lines 100-118, which
duplicates the one in `src/map_items.py` verbatim. -/
def webtool_map_token (token : List Char) (m md : Dict) : List Char × Bool :=
  match lookupNonEmpty m token with
  | some n => (n, true)
  | none =>
    let d := digits_only token
    let candidates :=
      if d.isEmpty then []
      else d :: (if d.length = 3 ∨ d.length = 4 then ['6' :: '6' :: d, '6' :: d] else [])
    match candLoop candidates m md with
    | some n => (n, true)
    | none => (token, false)

/-- The per-segment token loop of the webtool `transform_cell`, which
additionally appends each missed token to the optional accumulator
list `unmatched_acc`. -/
def webtool_mapTokens :
    List (List Char) → Dict → Dict → Option (List (List Char)) →
      (List (List Char) × Nat) × Option (List (List Char))
  | [], _, _, acc => (([], 0), acc)
  | t :: ts, m, md, acc =>
    let nh := webtool_map_token t m md
    let acc' :=
      if nh.2 then acc
      else
        match acc with
        | some l => some (l ++ [t])
        | none => none
    let r := webtool_mapTokens ts m md acc'
    ((nh.1 :: r.1.1, (if nh.2 then 0 else 1) + r.1.2), r.2)

/-- One segment of the webtool `transform_cell` (lines 136-151 of
`src/webtool/app.py`). -/
def webtool_processSeg (seg : List Char) (m md : Dict) (acc : Option (List (List Char))) :
    (List Char × Nat) × Option (List (List Char)) :=
  let parts := splitOnChar '$' seg
  let ids_part := parts.headD []
  let suffix_parts := parts.tail
  let id_tokens := (splitOnChar '-' ids_part).filter (fun t => !t.isEmpty)
  let r := webtool_mapTokens id_tokens m md acc
  let new_ids := if id_tokens.isEmpty then ids_part else joinSep '-' r.1.1
  let new_seg :=
    new_ids ++ (if suffix_parts.isEmpty then [] else '$' :: joinSep '$' suffix_parts)
  ((new_seg, r.1.2), r.2)

/-- The element loop of the webtool `transform_cell`. -/
def webtool_processTokens :
    List (List Char) → Dict → Dict → Option (List (List Char)) →
      (List (List Char) × Nat) × Option (List (List Char))
  | [], _, _, acc => (([], 0), acc)
  | tk :: rest, m, md, acc =>
    if isSepTok tk then
      let r := webtool_processTokens rest m md acc
      ((tk :: r.1.1, r.1.2), r.2)
    else if tk.isEmpty then webtool_processTokens rest m md acc
    else
      let s := webtool_processSeg tk m md acc
      let r := webtool_processTokens rest m md s.2
      ((s.1.1 :: r.1.1, s.1.2 + r.1.2), r.2)

/-- `transform_cell` from `src/webtool/app.py` lines 121-153: same as
the one in `src/map_items.py` but threading the optional
`unmatched_acc` list of missed tokens. -/
def webtool_transform_cell (text : Value) (keepPfx : Bool) (pfx : List Char) (m md : Dict)
    (acc : Option (List (List Char))) : (Value × Nat) × Option (List (List Char)) :=
  if falsy text then ((text, 0), acc)
  else
    let s := strip (to_text text)
    let body := if startsWith pfx s then s.drop pfx.length else s
    let r := webtool_processTokens (splitSep body) m md acc
    ((Value.vStr (if keepPfx then pfx ++ r.1.1.flatten else r.1.1.flatten), r.1.2), r.2)

/-- The candidate list exactly as the specification words it: `d`
first, and when `d` has length 3 or 4 also `"66"+d` then `"6"+d`. -/
def candList (d : List Char) : List (List Char) :=
  if d.length = 3 ∨ d.length = 4 then [d, '6' :: '6' :: d, '6' :: d] else [d]

/-- Resolution written from the specification's words (spec §4.1
resolve): exact hit first; empty digit form fails immediately;
otherwise the first candidate hitting the exact index, then the digits
index, with a non-empty value wins. -/
def resolveSpec (token : List Char) (m md : Dict) : List Char × Bool :=
  match lookupNonEmpty m token with
  | some n => (n, true)
  | none =>
    let d := digits_only token
    if d.isEmpty then (token, false)
    else
      match (candList d).findSome?
          (fun c =>
            match lookupNonEmpty m c with
            | some n => some n
            | none => lookupNonEmpty md c) with
      | some n => (n, true)
      | none => (token, false)

/-- A non-separator, non-empty element of the tokenized body: the
elements the rewriting loop treats as segments. -/
def goodSeg (tk : List Char) : Bool := !isSepTok tk && !tk.isEmpty

/-- The segments of a body, by the same tokenization the rewriter
uses. -/
def segsOf (body : List Char) : List (List Char) :=
  (splitSep body).filter goodSeg

/-- The identifier tokens of one segment: split off the `$`-suffixes,
split the id part on `-`, discard empty pieces. -/
def idTokens (seg : List Char) : List (List Char) :=
  (splitOnChar '-' ((splitOnChar '$' seg).headD [])).filter (fun t => !t.isEmpty)

/-- All identifier tokens of a body. -/
def cellTokens (body : List Char) : List (List Char) :=
  (segsOf body).flatMap idTokens

/-- Structural statistics of one segment: its `$`-suffix count and its
identifier-token count. -/
def statsSeg (seg : List Char) : Nat × Nat :=
  ((splitOnChar '$' seg).tail.length, (idTokens seg).length)

/-- Structural statistics of a body: one `(suffix count, token count)`
pair per segment, in order. -/
def segStats (body : List Char) : List (Nat × Nat) :=
  (segsOf body).map statsSeg

/-- Rewrite of a single tokenized element: separators pass through,
segments are rewritten. -/
def procTok (tk : List Char) (m md : Dict) : List Char :=
  if isSepTok tk then tk else (processSeg tk m md).1

/-- A string free of the segment separator characters `&` and `|`. -/
def sepFree (s : List Char) : Bool := s.all (fun c => !isSepChar c)

/-- A character with structural meaning in the mini-syntax. -/
def structChar (c : Char) : Bool := c == '&' || c == '|' || c == '$' || c == '-'

/-- A name free of all structural characters of the mini-syntax. -/
def cleanStr (s : List Char) : Bool := s.all (fun c => !structChar c)

/-- Every name stored in a lookup map is free of structural
characters. -/
def dictClean (m : Dict) : Bool := m.all (fun kv => cleanStr kv.2)

/-- A body whose segments have no stray hyphens: in each segment the
hyphen-split of the id part has either no empty piece or only empty
pieces. -/
def hyphenNormal (body : List Char) : Bool :=
  (segsOf body).all (fun seg =>
    let pieces := splitOnChar '-' ((splitOnChar '$' seg).headD [])
    pieces.all (fun p => !p.isEmpty) || pieces.all (fun p => p.isEmpty))

theorem candLoop_eq_findSome (m md : Dict) :
    ∀ cs, candLoop cs m md =
      cs.findSome? (fun c =>
        match lookupNonEmpty m c with
        | some n => some n
        | none => lookupNonEmpty md c)
  | [] => rfl
  | c :: cs => by
    simp only [candLoop, List.findSome?_cons]
    cases lookupNonEmpty m c with
    | some n => rfl
    | none =>
      cases lookupNonEmpty md c with
      | some n => rfl
      | none => exact candLoop_eq_findSome m md cs

/-- Claim C1: for every token and every MappingIndex, `map_token`
follows the multi-tier fallback exactly as the specification words it:
exact hit with non-empty value first; otherwise with `d` the
digits-only form, empty `d` fails with the token unchanged; otherwise
the candidates `d`, then (for `d` of length 3 or 4) `"66"+d`, then
`"6"+d`, each checked against the exact index before the digits index,
first non-empty hit returned with `true`, and `(token, false)` when no
candidate hits. -/
theorem map_token_matches_spec_fallback (token : List Char) (m md : Dict) :
    map_token token m md = resolveSpec token m md := by
  unfold map_token resolveSpec
  cases lookupNonEmpty m token with
  | some n => rfl
  | none =>
    simp only
    by_cases hd : (digits_only token).isEmpty
    · simp [hd, candLoop]
    · simp only [hd, if_neg, Bool.false_eq_true, ↓reduceIte, candLoop_eq_findSome, candList]
      by_cases hl : (digits_only token).length = 3 ∨ (digits_only token).length = 4
      · simp [hl]
      · simp [hl]

theorem lookupNonEmpty_some_ne_nil {m : Dict} {k n : List Char}
    (h : lookupNonEmpty m k = some n) : n ≠ [] := by
  unfold lookupNonEmpty at h
  cases hdl : dlookup m k with
  | none => simp [hdl] at h
  | some v =>
    simp only [hdl] at h
    split at h
    · exact absurd h (by simp)
    · next hv =>
      injection h with h'
      subst h'
      simpa [List.isEmpty_iff] using hv

theorem candLoop_some_ne_nil {m md : Dict} {n : List Char} :
    ∀ {cs}, candLoop cs m md = some n → n ≠ []
  | [], h => absurd h (by simp [candLoop])
  | c :: cs, h => by
    unfold candLoop at h
    cases h1 : lookupNonEmpty m c with
    | some v =>
      rw [h1] at h; cases h; exact lookupNonEmpty_some_ne_nil h1
    | none =>
      rw [h1] at h
      cases h2 : lookupNonEmpty md c with
      | some v =>
        rw [h2] at h; cases h; exact lookupNonEmpty_some_ne_nil h2
      | none =>
        rw [h2] at h
        exact candLoop_some_ne_nil h

/-- Claim C9: whenever `map_token` reports a match, the returned name
is a non-empty string, so a resolved identifier slot is never replaced
by the empty string. -/
theorem matched_name_nonempty (t : List Char) (m md : Dict)
    (h : (map_token t m md).2 = true) : (map_token t m md).1 ≠ [] := by
  unfold map_token at h ⊢
  cases h1 : lookupNonEmpty m t with
  | some n =>
    simp only [h1]
    exact lookupNonEmpty_some_ne_nil h1
  | none =>
    simp only [h1] at h ⊢
    split at h
    · next n heq => exact candLoop_some_ne_nil heq
    · exact absurd h (by simp)

theorem matched_name_nonempty_witness :
    (map_token ['1', '0', '1'] [(['1', '0', '1'], ['S'])] []).2 = true ∧
      (map_token ['1', '0', '1'] [(['1', '0', '1'], ['S'])] []).1 ≠ [] :=
  ⟨by decide, matched_name_nonempty ['1', '0', '1'] [(['1', '0', '1'], ['S'])] [] (by decide)⟩

/-- Claim C10: every falsy cell value — `''`, `None`, `0` and `0.0` —
short-circuits `transform_cell`: the value itself is returned with an
unmatched count of 0, with no text normalization, trimming or prefix
handling, for every flag, prefix and index. -/
theorem falsy_cells_short_circuit (kp : Bool) (pfx : List Char) (m md : Dict) :
    transform_cell (Value.vStr []) kp pfx m md = (Value.vStr [], 0) ∧
      transform_cell Value.vNone kp pfx m md = (Value.vNone, 0) ∧
      transform_cell (Value.vInt 0) kp pfx m md = (Value.vInt 0, 0) ∧
      transform_cell (Value.vFloat 0) kp pfx m md = (Value.vFloat 0, 0) := by
  refine ⟨?_, ?_, ?_, ?_⟩ <;> rfl

theorem webtool_mapTokens_none (m md : Dict) :
    ∀ ts, webtool_mapTokens ts m md none = (mapTokens ts m md, none)
  | [] => rfl
  | t :: ts => by
    have ih := webtool_mapTokens_none m md ts
    have he : webtool_map_token t m md = map_token t m md := rfl
    cases hb : (map_token t m md).2 <;>
      simp [webtool_mapTokens, mapTokens, he, hb, ih]

theorem webtool_processSeg_none (seg : List Char) (m md : Dict) :
    webtool_processSeg seg m md none = (processSeg seg m md, none) := by
  simp [webtool_processSeg, processSeg, webtool_mapTokens_none]

theorem webtool_processTokens_none (m md : Dict) :
    ∀ toks, webtool_processTokens toks m md none = (processTokens toks m md, none)
  | [] => rfl
  | tk :: rest => by
    have ih := webtool_processTokens_none m md rest
    by_cases hs : isSepTok tk = true
    · simp [webtool_processTokens, processTokens, hs, ih]
    · by_cases he : tk.isEmpty = true
      · simp [webtool_processTokens, processTokens, hs, he, ih]
      · simp [webtool_processTokens, processTokens, hs, he, ih, webtool_processSeg_none]

/-- Claim C8: the two files implement the same core rewriting logic:
`map_token` in `src/webtool/app.py` agrees with the one in
`src/map_items.py` on every input, and `transform_cell` called with no
unmatched-token accumulator returns the identical
`(newText, unmatchedCount)` pair on every input. -/
theorem webtool_core_equivalent :
    (∀ (t : List Char) (m md : Dict), webtool_map_token t m md = map_token t m md) ∧
      ∀ (text : Value) (kp : Bool) (pfx : List Char) (m md : Dict),
        webtool_transform_cell text kp pfx m md none =
          (transform_cell text kp pfx m md, none) := by
  refine ⟨fun _ _ _ => rfl, fun text kp pfx m md => ?_⟩
  unfold webtool_transform_cell transform_cell rewriteBody
  by_cases hf : falsy text = true
  · simp [hf]
  · simp [hf, webtool_processTokens_none]

/-- Claim C2: the concrete scenario of the specification: with mapping
entries ("101","Sword") and ("202","Shield"), prefix "物品=" and
keepPrefix on, the cell "物品=101-202$1&303$2" rewrites to
"物品=Sword-Shield$1&303$2" with one unmatched token, the single miss
being the token "303" (as collected by the webtool accumulator). -/
theorem rewrite_concrete_scenario :
    transform_cell (Value.vStr "物品=101-202$1&303$2".data) true "物品=".data
        (load_mapping [(Value.vStr "101".data, Value.vStr "Sword".data),
          (Value.vStr "202".data, Value.vStr "Shield".data)]).1
        (load_mapping [(Value.vStr "101".data, Value.vStr "Sword".data),
          (Value.vStr "202".data, Value.vStr "Shield".data)]).2 =
      (Value.vStr "物品=Sword-Shield$1&303$2".data, 1) ∧
      (webtool_transform_cell (Value.vStr "物品=101-202$1&303$2".data) true "物品=".data
          (load_mapping [(Value.vStr "101".data, Value.vStr "Sword".data),
            (Value.vStr "202".data, Value.vStr "Shield".data)]).1
          (load_mapping [(Value.vStr "101".data, Value.vStr "Sword".data),
            (Value.vStr "202".data, Value.vStr "Shield".data)]).2 (some [])).2 =
        some ["303".data] := by
  constructor
  · rfl
  · rfl

/-- Counterexample to claim C3: the built indexes do hold entries with
an empty name.  After the rows ("101","Sword") then ("101",""), both
the exact index and the digits index contain the entry ("101","") —
the code filters empty names at lookup time, not at build time. -/
theorem indexes_can_hold_empty_names :
    (load_mapping [(Value.vStr "101".data, Value.vStr "Sword".data),
        (Value.vStr "101".data, Value.vStr [])]).1 = [("101".data, [])] ∧
      (load_mapping [(Value.vStr "101".data, Value.vStr "Sword".data),
          (Value.vStr "101".data, Value.vStr [])]).2 = [("101".data, [])] := by
  constructor
  · rfl
  · rfl

theorem dlookup_some_mem : ∀ {m : Dict} {k v : List Char}, dlookup m k = some v → (k, v) ∈ m
  | [], _, _, h => by simp [dlookup] at h
  | (k', v') :: rest, k, v, h => by
    unfold dlookup at h
    by_cases hk : k = k'
    · rw [if_pos hk] at h
      injection h with h'
      subst h'
      subst hk
      exact List.mem_cons_self _ _
    · rw [if_neg hk] at h
      exact List.mem_cons_of_mem _ (dlookup_some_mem h)

theorem lookupNonEmpty_none_of_empty_vals {m : Dict}
    (hm : ∀ kv ∈ m, kv.2 = ([] : List Char)) (k : List Char) :
    lookupNonEmpty m k = none := by
  unfold lookupNonEmpty
  cases hdl : dlookup m k with
  | none => rfl
  | some v =>
    have hv : v = [] := hm (k, v) (dlookup_some_mem hdl)
    simp [hv]

theorem candLoop_none_of_empty_vals {m md : Dict}
    (hm : ∀ kv ∈ m, kv.2 = ([] : List Char))
    (hmd : ∀ kv ∈ md, kv.2 = ([] : List Char)) :
    ∀ cs, candLoop cs m md = none
  | [] => rfl
  | c :: cs => by
    simp only [candLoop, lookupNonEmpty_none_of_empty_vals hm,
      lookupNonEmpty_none_of_empty_vals hmd]
    exact candLoop_none_of_empty_vals hm hmd cs

theorem map_token_empty_vals {m md : Dict}
    (hm : ∀ kv ∈ m, kv.2 = ([] : List Char))
    (hmd : ∀ kv ∈ md, kv.2 = ([] : List Char)) (t : List Char) :
    map_token t m md = (t, false) := by
  simp [map_token, lookupNonEmpty_none_of_empty_vals hm,
    candLoop_none_of_empty_vals hm hmd]

/-- Claim C3 as amended: the indexes built from an entry list may
retain entries whose name is empty (see the counterexample), but
`map_token` treats an id whose stored name is empty as unmapped, even
when the empty-name entry collides on a key with an earlier non-empty
entry: after rows (id, name) then (id, ""), every token resolves to
itself with matched = false. -/
theorem empty_name_treated_unmapped (id name : Value) (t : List Char) :
    map_token t (load_mapping [(id, name), (id, Value.vStr [])]).1
      (load_mapping [(id, name), (id, Value.vStr [])]).2 = (t, false) := by
  have hstr : strip (to_text (Value.vStr [])) = [] := rfl
  by_cases he : (strip (to_text id)).isEmpty = true
  · have h1 : load_mapping [(id, name), (id, Value.vStr [])] = ([], []) := by
      simp [load_mapping, build_exact, insertEntry, he, build_digits]
    rw [h1]
    exact map_token_empty_vals (by simp) (by simp) t
  · have h1 : build_exact [(id, name), (id, Value.vStr [])] =
        [(strip (to_text id), [])] := by
      simp [build_exact, insertEntry, he, hstr, dinsert]
    have h2 : (load_mapping [(id, name), (id, Value.vStr [])]).1 =
        [(strip (to_text id), [])] := h1
    have h3 : (load_mapping [(id, name), (id, Value.vStr [])]).2 =
        build_digits [(strip (to_text id), [])] := by
      show build_digits (build_exact [(id, name), (id, Value.vStr [])]) = _
      rw [h1]
    rw [h2, h3]
    by_cases hd : (digits_only (strip (to_text id))).isEmpty = true
    · have hd' : digits_only (strip (to_text id)) = [] := by simpa using hd
      have h4 : build_digits [(strip (to_text id), [])] = [] := by
        simp [build_digits, hd']
      rw [h4]
      refine map_token_empty_vals ?_ (by simp) t
      intro kv hkv
      simp at hkv
      rw [hkv]
    · have hd' : ¬digits_only (strip (to_text id)) = [] := by simpa using hd
      have h4 : build_digits [(strip (to_text id), [])] =
          [(digits_only (strip (to_text id)), [])] := by
        simp [build_digits, hd', dinsert]
      rw [h4]
      refine map_token_empty_vals ?_ ?_ t <;>
        · intro kv hkv
          simp at hkv
          rw [hkv]

theorem dlookup_dinsert_self : ∀ (md : Dict) (k v : List Char),
    dlookup (dinsert md k v) k = some v
  | [], k, v => by simp [dinsert, dlookup]
  | (a, b) :: rest, k, v => by
    unfold dinsert
    by_cases hk : k = a
    · rw [if_pos hk]
      simp [dlookup]
    · rw [if_neg hk]
      unfold dlookup
      rw [if_neg hk]
      exact dlookup_dinsert_self rest k v

theorem dlookup_dinsert_ne : ∀ (md : Dict) {k u : List Char} (v : List Char), u ≠ k →
    dlookup (dinsert md k v) u = dlookup md u
  | [], k, u, v, h => by simp [dinsert, dlookup, h]
  | (a, b) :: rest, k, u, v, h => by
    unfold dinsert
    by_cases hk : k = a
    · rw [if_pos hk]
      subst hk
      unfold dlookup
      rw [if_neg h, if_neg h]
    · rw [if_neg hk]
      unfold dlookup
      by_cases h2 : u = a
      · rw [if_pos h2, if_pos h2]
      · rw [if_neg h2, if_neg h2]
        exact dlookup_dinsert_ne rest v h

theorem getLast?_cons_some {α : Type} {l : List α} {a x : α}
    (h : l.getLast? = some x) : (a :: l).getLast? = some x := by
  cases l with
  | nil => simp at h
  | cons b l' => rw [List.getLast?_cons_cons]; exact h

/-- What the digits-index fold computes at a non-empty digit key `d`:
the name of the last item of the iterated dict whose key normalizes to
`d`, falling back to the accumulator. -/
theorem build_digits_foldl (d : List Char) (hd : d ≠ []) :
    ∀ (m : Dict) (acc : Dict),
      dlookup (m.foldl (fun md kv =>
          if (digits_only kv.1).isEmpty then md
          else dinsert md (digits_only kv.1) kv.2) acc) d =
        match (m.filter (fun kv => digits_only kv.1 = d)).getLast? with
        | some kv => some kv.2
        | none => dlookup acc d
  | [], acc => by simp
  | kv :: m', acc => by
    rw [List.foldl_cons, build_digits_foldl d hd m']
    by_cases hkv : digits_only kv.1 = d
    · have hfc : List.filter (fun kv => digits_only kv.1 = d) (kv :: m') =
          kv :: List.filter (fun kv => digits_only kv.1 = d) m' := by
        simp [List.filter_cons, hkv]
      rw [hfc]
      have hne : (digits_only kv.1).isEmpty = false := by
        rw [hkv]
        cases d with
        | nil => exact absurd rfl hd
        | cons a as => rfl
      have hacc : (if (digits_only kv.1).isEmpty then acc
          else dinsert acc (digits_only kv.1) kv.2) = dinsert acc d kv.2 := by
        rw [hne, hkv]
        simp
      rw [hacc]
      cases hl : (m'.filter (fun kv => digits_only kv.1 = d)).getLast? with
      | some kv' =>
        rw [getLast?_cons_some hl]
      | none =>
        have hnil : m'.filter (fun kv => digits_only kv.1 = d) = [] := by
          cases hf : m'.filter (fun kv => digits_only kv.1 = d) with
          | nil => rfl
          | cons p ps =>
            rw [hf] at hl
            simp [List.getLast?] at hl
        rw [hnil, dlookup_dinsert_self]
        exact rfl
    · have hfc : List.filter (fun kv => digits_only kv.1 = d) (kv :: m') =
          List.filter (fun kv => digits_only kv.1 = d) m' := by
        simp [List.filter_cons, hkv]
      rw [hfc]
      cases hl : (m'.filter (fun kv => digits_only kv.1 = d)).getLast? with
      | some kv' => exact rfl
      | none =>
        show dlookup (if (digits_only kv.1).isEmpty then acc
            else dinsert acc (digits_only kv.1) kv.2) d = dlookup acc d
        by_cases he : (digits_only kv.1).isEmpty = true
        · rw [if_pos he]
        · rw [if_neg he]
          exact dlookup_dinsert_ne acc kv.2 (fun h => hkv h.symm)

/-- Counterexample to claim C4: with repeated ids the digits index
does not follow row order.  For the rows ("67-04","X"), ("6704","Y"),
("67-04","Z"), the two different raw ids "67-04" and "6704" both
normalize to "6704"; the later contribution by row order is row 3's
("67-04","Z"), yet the digits index maps "6704" to "Y" — row 3's
overwrite of "67-04" keeps its row-1 position in the exact dict, and
the digits comprehension iterates that dict in key-insertion order. -/
theorem digits_index_not_row_order :
    dlookup (load_mapping [(Value.vStr "67-04".data, Value.vStr "X".data),
        (Value.vStr "6704".data, Value.vStr "Y".data),
        (Value.vStr "67-04".data, Value.vStr "Z".data)]).2 "6704".data =
      some "Y".data ∧ (some "Y".data : Option (List Char)) ≠ some "Z".data := by
  refine ⟨by decide, by decide⟩

/-- Claim C4 as amended: for every entry list, the digits index maps
each non-empty digit string `d` to the final name of the last id in
the exact index's key-insertion order (the order of each id's first
occurrence among the rows) whose id normalizes to `d` — so of two
different colliding ids, the one whose first occurrence is later wins,
carrying its latest name; when no id repeats, this is the later row
(last write wins, no error). -/
theorem digits_index_follows_key_order (entries : List (Value × Value)) (d : List Char)
    (hd : d ≠ []) :
    dlookup (load_mapping entries).2 d =
      (((load_mapping entries).1.filter (fun kv => digits_only kv.1 = d)).getLast?).map
        Prod.snd := by
  show dlookup (build_digits (build_exact entries)) d = _
  unfold build_digits
  rw [build_digits_foldl d hd (build_exact entries) []]
  cases hl : ((build_exact entries).filter (fun kv => digits_only kv.1 = d)).getLast? with
  | some kv =>
    have hl' : ((load_mapping entries).1.filter
        (fun kv => digits_only kv.1 = d)).getLast? = some kv := hl
    rw [hl']
    exact rfl
  | none =>
    have hl' : ((load_mapping entries).1.filter
        (fun kv => digits_only kv.1 = d)).getLast? = none := hl
    rw [hl']
    exact rfl

theorem digits_index_follows_key_order_witness :
    ("6704".data : List Char) ≠ [] ∧
      dlookup (load_mapping [(Value.vStr "67-04".data, Value.vStr "X".data),
          (Value.vStr "6704".data, Value.vStr "Y".data),
          (Value.vStr "67-04".data, Value.vStr "Z".data)]).2 "6704".data =
        (((load_mapping [(Value.vStr "67-04".data, Value.vStr "X".data),
            (Value.vStr "6704".data, Value.vStr "Y".data),
            (Value.vStr "67-04".data, Value.vStr "Z".data)]).1.filter
              (fun kv => digits_only kv.1 = "6704".data)).getLast?).map Prod.snd :=
  ⟨by decide,
    digits_index_follows_key_order
      [(Value.vStr "67-04".data, Value.vStr "X".data),
        (Value.vStr "6704".data, Value.vStr "Y".data),
        (Value.vStr "67-04".data, Value.vStr "Z".data)] "6704".data (by decide)⟩

theorem splitOnChar_ne_nil (c : Char) : ∀ l, splitOnChar c l ≠ []
  | [] => by simp [splitOnChar]
  | x :: rest => by
    unfold splitOnChar
    by_cases hx : x = c
    · simp [hx]
    · rw [if_neg hx]
      cases h : splitOnChar c rest <;> simp

theorem splitOnChar_cons (c x : Char) (rest : List Char) :
    splitOnChar c (x :: rest) =
      if x = c then [] :: splitOnChar c rest
      else (x :: (splitOnChar c rest).headD []) :: (splitOnChar c rest).tail := by
  by_cases hx : x = c
  · rw [if_pos hx]
    conv_lhs => rw [splitOnChar]
    rw [if_pos hx]
  · rw [if_neg hx]
    conv_lhs => rw [splitOnChar]
    rw [if_neg hx]
    cases h : splitOnChar c rest with
    | nil => exact absurd h (splitOnChar_ne_nil c rest)
    | cons t ts => rfl

theorem joinSep_splitOnChar (c : Char) : ∀ l, joinSep c (splitOnChar c l) = l
  | [] => rfl
  | x :: rest => by
    rw [splitOnChar_cons]
    have ih := joinSep_splitOnChar c rest
    by_cases hx : x = c
    · rw [if_pos hx]
      cases h : splitOnChar c rest with
      | nil => exact absurd h (splitOnChar_ne_nil c rest)
      | cons t ts =>
        rw [h] at ih
        subst hx
        simpa [joinSep] using ih
    · rw [if_neg hx]
      cases h : splitOnChar c rest with
      | nil => exact absurd h (splitOnChar_ne_nil c rest)
      | cons t ts =>
        rw [h] at ih
        cases ts with
        | nil => simpa [joinSep] using congrArg (x :: ·) ih
        | cons t' ts' =>
          simp only [List.headD, List.tail]
          simp only [joinSep] at ih ⊢
          rw [← ih]
          simp

theorem splitOnChar_not_mem (c : Char) :
    ∀ l, ∀ p ∈ splitOnChar c l, c ∉ p
  | [], p, hp => by
    simp [splitOnChar] at hp
    simp [hp]
  | x :: rest, p, hp => by
    rw [splitOnChar_cons] at hp
    by_cases hx : x = c
    · rw [if_pos hx] at hp
      cases hp with
      | head => simp
      | tail _ h => exact splitOnChar_not_mem c rest p h
    · rw [if_neg hx] at hp
      cases hh : splitOnChar c rest with
      | nil => exact absurd hh (splitOnChar_ne_nil c rest)
      | cons t ts =>
        rw [hh] at hp
        cases hp with
        | head =>
          intro hc
          cases hc with
          | head => exact hx rfl
          | tail _ h =>
            exact splitOnChar_not_mem c rest t
              (by rw [hh]; exact List.mem_cons_self _ _) h
        | tail _ h =>
          exact splitOnChar_not_mem c rest p
            (by rw [hh]; exact List.mem_cons_of_mem _ h)

theorem splitOnChar_mem_subset (c : Char) :
    ∀ l, ∀ p ∈ splitOnChar c l, ∀ x ∈ p, x ∈ l
  | [], p, hp, x, hx => by
    simp [splitOnChar] at hp
    subst hp
    simp at hx
  | y :: rest, p, hp, x, hx => by
    rw [splitOnChar_cons] at hp
    by_cases hy : y = c
    · rw [if_pos hy] at hp
      cases hp with
      | head => simp at hx
      | tail _ h => exact List.mem_cons_of_mem _ (splitOnChar_mem_subset c rest p h x hx)
    · rw [if_neg hy] at hp
      cases hh : splitOnChar c rest with
      | nil => exact absurd hh (splitOnChar_ne_nil c rest)
      | cons t ts =>
        rw [hh] at hp
        cases hp with
        | head =>
          cases hx with
          | head => exact List.mem_cons_self _ _
          | tail _ h =>
            exact List.mem_cons_of_mem _
              (splitOnChar_mem_subset c rest t
                (by rw [hh]; exact List.mem_cons_self _ _) x h)
        | tail _ h =>
          exact List.mem_cons_of_mem _
            (splitOnChar_mem_subset c rest p
              (by rw [hh]; exact List.mem_cons_of_mem _ h) x hx)

theorem splitOnChar_no_sep (c : Char) {a : List Char} (ha : c ∉ a) :
    splitOnChar c a = [a] := by
  induction a with
  | nil => rfl
  | cons x rest ih =>
    have hx : x ≠ c := fun h => ha (h ▸ List.mem_cons_self _ _)
    have hrest : c ∉ rest := fun h => ha (List.mem_cons_of_mem _ h)
    rw [splitOnChar_cons, if_neg hx, ih hrest]
    rfl

theorem splitOnChar_append_sep (c : Char) {a : List Char} (ha : c ∉ a) (b : List Char) :
    splitOnChar c (a ++ c :: b) = a :: splitOnChar c b := by
  induction a with
  | nil => simp [splitOnChar_cons]
  | cons x rest ih =>
    have hx : x ≠ c := fun h => ha (h ▸ List.mem_cons_self _ _)
    have hrest : c ∉ rest := fun h => ha (List.mem_cons_of_mem _ h)
    rw [List.cons_append, splitOnChar_cons, if_neg hx, ih hrest]
    rfl

theorem splitOnChar_joinSep (c : Char) :
    ∀ ps, ps ≠ [] → (∀ p ∈ ps, c ∉ p) → splitOnChar c (joinSep c ps) = ps
  | [], h, _ => absurd rfl h
  | [p], _, hps => by
    simp only [joinSep]
    exact splitOnChar_no_sep c (hps p (List.mem_cons_self _ _))
  | p :: q :: ps, _, hps => by
    simp only [joinSep]
    rw [splitOnChar_append_sep c (hps p (List.mem_cons_self _ _))]
    have hrec := splitOnChar_joinSep c (q :: ps) (by simp)
      (fun r hr => hps r (List.mem_cons_of_mem _ hr))
    simp only [joinSep] at hrec
    rw [hrec]

theorem mem_joinSep {c x : Char} :
    ∀ {ps : List (List Char)}, x ∈ joinSep c ps → x = c ∨ ∃ p ∈ ps, x ∈ p
  | [], h => by simp [joinSep] at h
  | [p], h => by
    simp only [joinSep] at h
    exact Or.inr ⟨p, List.mem_cons_self _ _, h⟩
  | p :: q :: ps, h => by
    simp only [joinSep] at h
    rw [List.mem_append] at h
    cases h with
    | inl h => exact Or.inr ⟨p, List.mem_cons_self _ _, h⟩
    | inr h =>
      cases h with
      | head => exact Or.inl rfl
      | tail _ h =>
        cases @mem_joinSep c x (q :: ps) h with
        | inl h => exact Or.inl h
        | inr h =>
          obtain ⟨r, hr, hx⟩ := h
          exact Or.inr ⟨r, List.mem_cons_of_mem _ hr, hx⟩

theorem joinSep_cons (c : Char) (p : List Char) (ps : List (List Char)) :
    joinSep c (p :: ps) = p ++ (if ps.isEmpty then [] else c :: joinSep c ps) := by
  cases ps with
  | nil => simp [joinSep]
  | cons q ps' => simp [joinSep]

theorem splitSep_ne_nil : ∀ l, splitSep l ≠ []
  | [] => by simp [splitSep]
  | c :: rest => by
    unfold splitSep
    by_cases hc : isSepChar c = true
    · simp [hc]
    · simp only [hc, Bool.false_eq_true, if_false]
      cases h : splitSep rest <;> simp

theorem splitSep_cons (c : Char) (rest : List Char) :
    splitSep (c :: rest) =
      if isSepChar c then [] :: [c] :: splitSep rest
      else (c :: (splitSep rest).headD []) :: (splitSep rest).tail := by
  by_cases hc : isSepChar c = true
  · rw [if_pos hc]
    conv_lhs => rw [splitSep]
    rw [if_pos hc]
  · rw [if_neg hc]
    conv_lhs => rw [splitSep]
    rw [if_neg hc]
    cases h : splitSep rest with
    | nil => exact absurd h (splitSep_ne_nil rest)
    | cons t ts => rfl

theorem flatten_splitSep : ∀ l, (splitSep l).flatten = l
  | [] => rfl
  | c :: rest => by
    rw [splitSep_cons]
    have ih := flatten_splitSep rest
    by_cases hc : isSepChar c = true
    · rw [if_pos hc]
      simpa using ih
    · rw [if_neg hc]
      cases h : splitSep rest with
      | nil => exact absurd h (splitSep_ne_nil rest)
      | cons t ts =>
        rw [h] at ih
        simp only [List.flatten_cons] at ih ⊢
        simp [← ih]

/-- The shape invariant of `re.split(r'([&|])', s)` output: elements
alternate between separator-free chunks and singleton separators,
starting and ending with a chunk. -/
def chainOk : List (List Char) → Bool
  | [] => false
  | [t] => sepFree t
  | t :: s :: rest => sepFree t && isSepTok s && chainOk rest

theorem isSepTok_of_isSepChar {c : Char} (hc : isSepChar c = true) : isSepTok [c] = true := by
  have h : c = '&' ∨ c = '|' := by simpa [isSepChar] using hc
  cases h with
  | inl h => rw [h]; rfl
  | inr h => rw [h]; rfl

theorem chainOk_splitSep : ∀ l, chainOk (splitSep l) = true
  | [] => rfl
  | c :: rest => by
    rw [splitSep_cons]
    have ih := chainOk_splitSep rest
    by_cases hc : isSepChar c = true
    · rw [if_pos hc]
      cases h : splitSep rest with
      | nil => exact absurd h (splitSep_ne_nil rest)
      | cons t ts =>
        rw [h] at ih
        simp [chainOk, isSepTok_of_isSepChar hc, ih, sepFree]
    · rw [if_neg hc]
      have hcf : isSepChar c = false := by
        cases hcc : isSepChar c with
        | false => rfl
        | true => exact absurd hcc hc
      cases h : splitSep rest with
      | nil => exact absurd h (splitSep_ne_nil rest)
      | cons t ts =>
        rw [h] at ih
        cases ts with
        | nil =>
          simp only [chainOk, sepFree, List.all_cons] at ih ⊢
          simp [hcf, ih]
        | cons s ts' =>
          simp only [chainOk, sepFree, List.all_cons, Bool.and_eq_true] at ih ⊢
          exact ⟨⟨⟨by simp [hcf], ih.1.1⟩, ih.1.2⟩, ih.2⟩

theorem chainOk_mem :
    ∀ {gs}, chainOk gs = true → ∀ tk ∈ gs, isSepTok tk = true ∨ sepFree tk = true
  | [], h, _, _ => by simp [chainOk] at h
  | [t], h, tk, htk => by
    simp only [List.mem_singleton] at htk
    subst htk
    exact Or.inr (by simpa [chainOk] using h)
  | t :: s :: rest, h, tk, htk => by
    simp only [chainOk, Bool.and_eq_true] at h
    cases htk with
    | head => exact Or.inr h.1.1
    | tail _ h2 =>
      cases h2 with
      | head => exact Or.inl h.1.2
      | tail _ h3 => exact chainOk_mem h.2 tk h3

theorem splitSep_elems (l : List Char) :
    ∀ tk ∈ splitSep l, isSepTok tk = true ∨ sepFree tk = true :=
  chainOk_mem (chainOk_splitSep l)

theorem isSepTok_eq {s : List Char} (h : isSepTok s = true) : s = ['&'] ∨ s = ['|'] := by
  simpa [isSepTok] using h

theorem splitSep_sepFree_prepend :
    ∀ (a : List Char) {b : List Char} {t : List Char} {ts : List (List Char)},
      sepFree a = true → splitSep b = t :: ts → splitSep (a ++ b) = (a ++ t) :: ts
  | [], b, t, ts, _, hb => by simpa using hb
  | x :: a, b, t, ts, ha, hb => by
    simp only [sepFree, List.all_cons, Bool.and_eq_true] at ha
    have hx : ¬isSepChar x = true := by simpa using ha.1
    rw [List.cons_append, splitSep_cons, if_neg hx,
      splitSep_sepFree_prepend a ha.2 hb]
    rfl

theorem splitSep_flatten_chain : ∀ gs, chainOk gs = true → splitSep gs.flatten = gs
  | [], h => by simp [chainOk] at h
  | [t], h => by
    have ht : sepFree t = true := by simpa [chainOk] using h
    have := @splitSep_sepFree_prepend t [] [] [] ht rfl
    simpa using this
  | t :: s :: rest, h => by
    simp only [chainOk, Bool.and_eq_true] at h
    have ih := splitSep_flatten_chain rest h.2
    have hc : ∃ c, s = [c] ∧ isSepChar c = true := by
      cases isSepTok_eq h.1.2 with
      | inl hs => exact ⟨'&', hs, rfl⟩
      | inr hs => exact ⟨'|', hs, rfl⟩
    obtain ⟨c, hs, hcc⟩ := hc
    subst hs
    have h1 : splitSep (c :: rest.flatten) = [] :: [c] :: rest := by
      rw [splitSep_cons, if_pos hcc, ih]
    have h2 : splitSep (t ++ c :: rest.flatten) = (t ++ []) :: [c] :: rest :=
      splitSep_sepFree_prepend t h.1.1 h1
    simpa using h2

theorem processTokens_fst (m md : Dict) :
    ∀ toks, (processTokens toks m md).1 =
      (toks.filter (fun tk => !tk.isEmpty)).map (fun tk => procTok tk m md)
  | [] => rfl
  | tk :: rest => by
    have ih := processTokens_fst m md rest
    by_cases hs : isSepTok tk = true
    · have hne : tk.isEmpty = false := by
        cases isSepTok_eq hs with
        | inl h => rw [h]; rfl
        | inr h => rw [h]; rfl
      simp [processTokens, hs, procTok, hne, ih]
    · by_cases he : tk.isEmpty = true
      · simp [processTokens, hs, he, ih]
      · simp [processTokens, hs, he, procTok, ih]

/-- Claim C5: every `&` and `|` separator of the body keeps its
original slot: tokenization keeps each separator character as its own
element in original position and reconstructs the body exactly (so a
string mixing both separators is never normalized to one of them), and
the rewriting loop maps separator elements to themselves, emitting
them unchanged in their original order. -/
theorem separators_preserved (body : List Char) (m md : Dict) :
    (splitSep body).flatten = body ∧
      (splitSep body).all (fun tk => isSepTok tk || sepFree tk) = true ∧
      (processTokens (splitSep body) m md).1 =
        ((splitSep body).filter (fun tk => !tk.isEmpty)).map (fun tk => procTok tk m md) ∧
      ((splitSep body).filter isSepTok).map (fun tk => procTok tk m md) =
        (splitSep body).filter isSepTok := by
  refine ⟨flatten_splitSep body, ?_, processTokens_fst m md (splitSep body), ?_⟩
  · rw [List.all_eq_true]
    intro tk htk
    cases splitSep_elems body tk htk with
    | inl h => simp [h]
    | inr h => simp [h]
  · have hid : ∀ tk ∈ (splitSep body).filter isSepTok, procTok tk m md = tk := by
      intro tk htk
      have hs := (List.mem_filter.mp htk).2
      simp [procTok, hs]
    calc ((splitSep body).filter isSepTok).map (fun tk => procTok tk m md)
        = ((splitSep body).filter isSepTok).map id := List.map_congr_left hid
      _ = (splitSep body).filter isSepTok := List.map_id _

theorem map_token_miss {t : List Char} {m md : Dict} (h : (map_token t m md).2 = false) :
    (map_token t m md).1 = t := by
  unfold map_token at h ⊢
  cases h1 : lookupNonEmpty m t with
  | some n => simp [h1] at h
  | none =>
    simp only [h1] at h ⊢
    split at h
    · simp at h
    · rfl

theorem mapTokens_fst (m md : Dict) :
    ∀ ts, (mapTokens ts m md).1 = ts.map (fun t => (map_token t m md).1)
  | [] => rfl
  | t :: ts => by
    simp [mapTokens, mapTokens_fst m md ts]

theorem mapTokens_all_miss (m md : Dict) :
    ∀ ts, (∀ t ∈ ts, (map_token t m md).2 = false) → mapTokens ts m md = (ts, ts.length)
  | [], _ => rfl
  | t :: ts, h => by
    have ht := h t (List.mem_cons_self _ _)
    have ih := mapTokens_all_miss m md ts (fun u hu => h u (List.mem_cons_of_mem _ hu))
    simp [mapTokens, ht, map_token_miss ht, ih, Nat.add_comm]

theorem processSeg_all_miss (seg : List Char) (m md : Dict)
    (hmiss : ∀ t ∈ idTokens seg, (map_token t m md).2 = false)
    (hnorm : ((splitOnChar '-' ((splitOnChar '$' seg).headD [])).all (fun p => !p.isEmpty) ||
        (splitOnChar '-' ((splitOnChar '$' seg).headD [])).all (fun p => p.isEmpty)) = true) :
    processSeg seg m md = (seg, (idTokens seg).length) := by
  obtain ⟨ids, sufs, hparts⟩ : ∃ ids sufs, splitOnChar '$' seg = ids :: sufs := by
    cases h : splitOnChar '$' seg with
    | nil => exact absurd h (splitOnChar_ne_nil '$' seg)
    | cons t ts => exact ⟨t, ts, rfl⟩
  have hseg : seg = ids ++ (if sufs.isEmpty then [] else '$' :: joinSep '$' sufs) := by
    conv_lhs => rw [← joinSep_splitOnChar '$' seg]
    rw [hparts, joinSep_cons]
  have hidtk : idTokens seg = (splitOnChar '-' ids).filter (fun t => !t.isEmpty) := by
    simp [idTokens, hparts]
  rw [hparts] at hnorm
  simp only [List.headD] at hnorm
  unfold processSeg
  rw [hparts]
  simp only [List.headD, List.tail]
  rw [hidtk] at hmiss ⊢
  rcases Bool.or_eq_true _ _ |>.mp hnorm with hA | hB
  · -- no empty pieces: the filter is the identity and every token misses
    have hfil : (splitOnChar '-' ids).filter (fun t => !t.isEmpty) = splitOnChar '-' ids :=
      List.filter_eq_self.mpr (List.all_eq_true.mp hA)
    rw [hfil] at hmiss ⊢
    have hpn : splitOnChar '-' ids ≠ [] := splitOnChar_ne_nil '-' ids
    have hmt : mapTokens (splitOnChar '-' ids) m md =
        (splitOnChar '-' ids, (splitOnChar '-' ids).length) :=
      mapTokens_all_miss m md _ hmiss
    have hie : (splitOnChar '-' ids).isEmpty = false := by
      cases h : (splitOnChar '-' ids).isEmpty with
      | false => rfl
      | true => exact absurd (List.isEmpty_iff.mp h) hpn
    simp only [hie, Bool.false_eq_true, if_false, hmt]
    rw [joinSep_splitOnChar '-' ids]
    exact Prod.ext (hseg.symm) rfl
  · -- only empty pieces: no tokens, the id part passes through unchanged
    have hfil : (splitOnChar '-' ids).filter (fun t => !t.isEmpty) = [] := by
      rw [List.filter_eq_nil_iff]
      intro p hp
      simp [List.all_eq_true.mp hB p hp]
    rw [hfil]
    simp only [List.isEmpty_nil, if_true, mapTokens]
    exact Prod.ext (hseg.symm) rfl

theorem processTokens_all_miss (m md : Dict) :
    ∀ toks,
      (∀ tk ∈ toks, isSepTok tk = false → tk.isEmpty = false →
        processSeg tk m md = (tk, (idTokens tk).length)) →
      (processTokens toks m md).1.flatten = toks.flatten ∧
        (processTokens toks m md).2 = ((toks.filter goodSeg).flatMap idTokens).length
  | [], _ => ⟨rfl, rfl⟩
  | tk :: rest, h => by
    have ih := processTokens_all_miss m md rest (fun u hu => h u (List.mem_cons_of_mem _ hu))
    by_cases hs : isSepTok tk = true
    · have hg : goodSeg tk = false := by simp [goodSeg, hs]
      simp [processTokens, hs, ih.1, ih.2, hg]
    · have hs' : isSepTok tk = false := by
        cases hh : isSepTok tk with
        | false => rfl
        | true => exact absurd hh hs
      by_cases he : tk.isEmpty = true
      · have htk : tk = [] := List.isEmpty_iff.mp he
        subst htk
        simp [processTokens, isSepTok, goodSeg, ih.1, ih.2]
      · have he' : tk.isEmpty = false := by
          cases hh : tk.isEmpty with
          | false => rfl
          | true => exact absurd hh he
        have hps := h tk (List.mem_cons_self _ _) hs' he'
        have hg : goodSeg tk = true := by simp [goodSeg, hs', he']
        simp [processTokens, hs, he, hps, ih.1, ih.2, hg]

/-- Counterexample to claim C7: a cell with stray hyphens is not
returned verbatim even when nothing resolves.  With empty indexes
(so no identifier is recognizable), the cell "1--2" rewrites to
"1-2" — the rejoin collapses the empty piece between the hyphens —
while its two identifier tokens are counted as unmatched. -/
theorem roundtrip_hyphen_collapse :
    (cellTokens "1--2".data).all (fun t => !(map_token t [] []).2) = true ∧
      transform_cell (Value.vStr "1--2".data) false [] [] [] =
        (Value.vStr "1-2".data, 2) ∧
      "1-2".data ≠ "1--2".data := by
  refine ⟨by decide, by decide, by decide⟩

/-- Claim C7 as amended: rewriting a cell in which no identifier token
is recognizable returns the input body unchanged with unmatchedCount
equal to the number of identifier tokens, provided the cell's id
groups have no stray hyphens (no empty piece in any hyphen-split,
unless the whole id part consists of hyphens only; otherwise the
rejoin collapses the empty pieces — see the counterexample). -/
theorem roundtrip_unrecognized_cells (body : List Char) (m md : Dict)
    (hstrip : strip body = body)
    (hmiss : (cellTokens body).all (fun t => !(map_token t m md).2) = true)
    (hnorm : hyphenNormal body = true) :
    transform_cell (Value.vStr body) false [] m md =
      (Value.vStr body, (cellTokens body).length) := by
  by_cases hb : body.isEmpty = true
  · have hb' : body = [] := List.isEmpty_iff.mp hb
    subst hb'
    rfl
  · have hmiss' : ∀ t ∈ cellTokens body, (map_token t m md).2 = false := by
      intro t ht
      have := List.all_eq_true.mp hmiss t ht
      simpa using this
    have hper : ∀ tk ∈ splitSep body, isSepTok tk = false → tk.isEmpty = false →
        processSeg tk m md = (tk, (idTokens tk).length) := by
      intro tk htk hs he
      have hgood : goodSeg tk = true := by simp [goodSeg, hs, he]
      have hmem : tk ∈ segsOf body := List.mem_filter.mpr ⟨htk, hgood⟩
      apply processSeg_all_miss
      · intro t ht
        exact hmiss' t (List.mem_flatMap.mpr ⟨tk, hmem, ht⟩)
      · have := List.all_eq_true.mp hnorm tk hmem
        simpa using this
    have hmain := processTokens_all_miss m md (splitSep body) hper
    have hfalsy : falsy (Value.vStr body) = false := by simpa [falsy] using hb
    have hcount : (processTokens (splitSep body) m md).2 = (cellTokens body).length := by
      rw [hmain.2]
      rfl
    have hflat : (processTokens (splitSep body) m md).1.flatten = body := by
      rw [hmain.1, flatten_splitSep]
    unfold transform_cell
    rw [hfalsy]
    simp only [Bool.false_eq_true, if_false, to_text, hstrip]
    have hsw : startsWith [] body = true := rfl
    simp only [hsw, if_true, List.length_nil, List.drop_zero]
    unfold rewriteBody
    simp only [hflat, hcount, Bool.false_eq_true, if_false]

theorem roundtrip_unrecognized_cells_witness :
    strip "101&202$1".data = "101&202$1".data ∧
      (cellTokens "101&202$1".data).all (fun t => !(map_token t [] []).2) = true ∧
      hyphenNormal "101&202$1".data = true ∧
      transform_cell (Value.vStr "101&202$1".data) false [] [] [] =
        (Value.vStr "101&202$1".data, (cellTokens "101&202$1".data).length) :=
  ⟨by decide, by decide, by decide,
    roundtrip_unrecognized_cells "101&202$1".data [] [] (by decide) (by decide) (by decide)⟩

theorem lookupNonEmpty_some_mem {m : Dict} {k n : List Char}
    (h : lookupNonEmpty m k = some n) : (k, n) ∈ m := by
  unfold lookupNonEmpty at h
  cases hdl : dlookup m k with
  | none => simp [hdl] at h
  | some v =>
    simp only [hdl] at h
    split at h
    · exact absurd h (by simp)
    · injection h with h'
      subst h'
      exact dlookup_some_mem hdl

theorem candLoop_some_mem {m md : Dict} {n : List Char} :
    ∀ {cs}, candLoop cs m md = some n → (∃ k, (k, n) ∈ m) ∨ (∃ k, (k, n) ∈ md)
  | [], h => by simp [candLoop] at h
  | c :: cs, h => by
    unfold candLoop at h
    cases h1 : lookupNonEmpty m c with
    | some v =>
      rw [h1] at h
      injection h with h'
      subst h'
      exact Or.inl ⟨c, lookupNonEmpty_some_mem h1⟩
    | none =>
      rw [h1] at h
      cases h2 : lookupNonEmpty md c with
      | some v =>
        rw [h2] at h
        injection h with h'
        subst h'
        exact Or.inr ⟨c, lookupNonEmpty_some_mem h2⟩
      | none =>
        rw [h2] at h
        exact candLoop_some_mem h

theorem map_token_hit_mem {t : List Char} {m md : Dict}
    (h : (map_token t m md).2 = true) :
    (∃ k, (k, (map_token t m md).1) ∈ m) ∨ (∃ k, (k, (map_token t m md).1) ∈ md) := by
  unfold map_token at h ⊢
  cases h1 : lookupNonEmpty m t with
  | some n =>
    simp only [h1]
    exact Or.inl ⟨t, lookupNonEmpty_some_mem h1⟩
  | none =>
    simp only [h1] at h ⊢
    split at h
    · next n heq => exact candLoop_some_mem heq
    · exact absurd h (by simp)

theorem map_token_hit_ne {t : List Char} {m md : Dict}
    (h : (map_token t m md).2 = true) : (map_token t m md).1 ≠ [] := by
  unfold map_token at h ⊢
  cases h1 : lookupNonEmpty m t with
  | some n =>
    simp only [h1]
    exact lookupNonEmpty_some_ne_nil h1
  | none =>
    simp only [h1] at h ⊢
    split at h
    · next n heq => exact candLoop_some_ne_nil heq
    · exact absurd h (by simp)

theorem sepFree_iff {s : List Char} : sepFree s = true ↔ ∀ c ∈ s, isSepChar c = false := by
  rw [sepFree, List.all_eq_true]
  refine forall_congr' fun c => forall_congr' fun hc => ?_
  simp [Bool.not_eq_true']

theorem cleanStr_iff {s : List Char} : cleanStr s = true ↔ ∀ c ∈ s, structChar c = false := by
  rw [cleanStr, List.all_eq_true]
  refine forall_congr' fun c => forall_congr' fun hc => ?_
  simp [Bool.not_eq_true']

theorem structChar_false_parts {c : Char} (h : structChar c = false) :
    isSepChar c = false ∧ c ≠ '$' ∧ c ≠ '-' := by
  simp only [structChar, Bool.or_eq_false_iff, beq_eq_false_iff_ne, ne_eq] at h
  obtain ⟨⟨⟨ha, hb⟩, hd⟩, he⟩ := h
  refine ⟨?_, hd, he⟩
  simp only [isSepChar, Bool.or_eq_false_iff, beq_eq_false_iff_ne, ne_eq]
  exact ⟨ha, hb⟩

theorem structChar_false_intro {c : Char}
    (h1 : isSepChar c = false) (h2 : c ≠ '$') (h3 : c ≠ '-') : structChar c = false := by
  simp only [isSepChar, Bool.or_eq_false_iff, beq_eq_false_iff_ne, ne_eq] at h1
  simp only [structChar, Bool.or_eq_false_iff, beq_eq_false_iff_ne, ne_eq]
  exact ⟨⟨⟨h1.1, h1.2⟩, h2⟩, h3⟩

theorem joinSep_ne_nil {c : Char} :
    ∀ {ps : List (List Char)}, ps ≠ [] → (∀ p ∈ ps, p ≠ []) → joinSep c ps ≠ []
  | [], hps, _ => absurd rfl hps
  | p :: ps', _, hhead => by
    rw [joinSep_cons]
    cases ps' with
    | nil => simpa using hhead p (List.mem_cons_self _ _)
    | cons q qs =>
      simp

theorem idTokens_clean {seg ids : List Char} {sufs : List (List Char)}
    (hparts : splitOnChar '$' seg = ids :: sufs) (hsf : sepFree seg = true) :
    ∀ t ∈ (splitOnChar '-' ids).filter (fun t => !t.isEmpty), cleanStr t = true ∧ t ≠ [] := by
  intro t ht
  have hids_mem : ids ∈ splitOnChar '$' seg := by rw [hparts]; exact List.mem_cons_self _ _
  have hids_sub : ∀ x ∈ ids, x ∈ seg := splitOnChar_mem_subset '$' seg ids hids_mem
  have hids_nodol : '$' ∉ ids := splitOnChar_not_mem '$' seg ids hids_mem
  have htp : t ∈ splitOnChar '-' ids := List.mem_of_mem_filter ht
  have htne : t ≠ [] := by
    have := (List.mem_filter.mp ht).2
    simpa [List.isEmpty_iff] using this
  have hsub : ∀ x ∈ t, x ∈ ids := splitOnChar_mem_subset '-' ids t htp
  have hnod : '-' ∉ t := splitOnChar_not_mem '-' ids t htp
  refine ⟨cleanStr_iff.mpr fun c hc => ?_, htne⟩
  have hsep : isSepChar c = false := sepFree_iff.mp hsf c (hids_sub c (hsub c hc))
  refine structChar_false_intro hsep ?_ ?_
  · intro hdd
    exact hids_nodol (hdd ▸ hsub c hc)
  · intro hdd
    exact hnod (hdd ▸ hc)

theorem mapTokens_clean {m md : Dict} (hm : dictClean m = true) (hmd : dictClean md = true)
    {ts : List (List Char)} (hts : ∀ t ∈ ts, cleanStr t = true ∧ t ≠ []) :
    ∀ n ∈ (mapTokens ts m md).1, cleanStr n = true ∧ n ≠ [] := by
  intro n hn
  rw [mapTokens_fst] at hn
  obtain ⟨t, ht, rfl⟩ := List.mem_map.mp hn
  by_cases hhit : (map_token t m md).2 = true
  · refine ⟨?_, map_token_hit_ne hhit⟩
    cases map_token_hit_mem hhit with
    | inl hmem =>
      obtain ⟨k, hk⟩ := hmem
      have := List.all_eq_true.mp hm (k, (map_token t m md).1) hk
      simpa using this
    | inr hmem =>
      obtain ⟨k, hk⟩ := hmem
      have := List.all_eq_true.mp hmd (k, (map_token t m md).1) hk
      simpa using this
  · have hmiss : (map_token t m md).2 = false := by
      cases hh : (map_token t m md).2 with
      | false => rfl
      | true => exact absurd hh hhit
    rw [map_token_miss hmiss]
    exact hts t ht

theorem processSeg_good {m md : Dict} (hm : dictClean m = true) (hmd : dictClean md = true)
    (seg : List Char) (hsf : sepFree seg = true) (hne : seg ≠ []) :
    sepFree (processSeg seg m md).1 = true ∧ (processSeg seg m md).1 ≠ [] ∧
      statsSeg (processSeg seg m md).1 = statsSeg seg := by
  obtain ⟨ids, sufs, hparts⟩ : ∃ ids sufs, splitOnChar '$' seg = ids :: sufs := by
    cases h : splitOnChar '$' seg with
    | nil => exact absurd h (splitOnChar_ne_nil '$' seg)
    | cons t ts => exact ⟨t, ts, rfl⟩
  have hids_mem : ids ∈ splitOnChar '$' seg := by
    rw [hparts]; exact List.mem_cons_self _ _
  have hids_sub : ∀ x ∈ ids, x ∈ seg := splitOnChar_mem_subset '$' seg ids hids_mem
  have hids_nodol : '$' ∉ ids := splitOnChar_not_mem '$' seg ids hids_mem
  have hsufs_mem : ∀ p ∈ sufs, p ∈ splitOnChar '$' seg := fun p hp => by
    rw [hparts]; exact List.mem_cons_of_mem _ hp
  have hsufs_sub : ∀ p ∈ sufs, ∀ x ∈ p, x ∈ seg := fun p hp =>
    splitOnChar_mem_subset '$' seg p (hsufs_mem p hp)
  have hsufs_nodol : ∀ p ∈ sufs, '$' ∉ p := fun p hp =>
    splitOnChar_not_mem '$' seg p (hsufs_mem p hp)
  have hseg_sep : ∀ c ∈ seg, isSepChar c = false := sepFree_iff.mp hsf
  have hseg_join : seg = ids ++ (if sufs.isEmpty then [] else '$' :: joinSep '$' sufs) := by
    conv_lhs => rw [← joinSep_splitOnChar '$' seg]
    rw [hparts, joinSep_cons]
  have htokc := idTokens_clean hparts hsf
  have hps : processSeg seg m md =
      ((if ((splitOnChar '-' ids).filter (fun t => !t.isEmpty)).isEmpty then ids
        else joinSep '-' (mapTokens ((splitOnChar '-' ids).filter (fun t => !t.isEmpty)) m md).1) ++
          (if sufs.isEmpty then [] else '$' :: joinSep '$' sufs),
        (mapTokens ((splitOnChar '-' ids).filter (fun t => !t.isEmpty)) m md).2) := by
    unfold processSeg
    rw [hparts]
    rfl
  have hstats_seg : statsSeg seg =
      (sufs.length, ((splitOnChar '-' ids).filter (fun t => !t.isEmpty)).length) := by
    unfold statsSeg idTokens
    rw [hparts]
    rfl
  -- properties of the rewritten id part
  have hXprops :
      (∀ c ∈ (if ((splitOnChar '-' ids).filter (fun t => !t.isEmpty)).isEmpty then ids
          else joinSep '-' (mapTokens ((splitOnChar '-' ids).filter (fun t => !t.isEmpty)) m md).1),
        isSepChar c = false) ∧
      '$' ∉ (if ((splitOnChar '-' ids).filter (fun t => !t.isEmpty)).isEmpty then ids
          else joinSep '-' (mapTokens ((splitOnChar '-' ids).filter (fun t => !t.isEmpty)) m md).1) ∧
      ((splitOnChar '-'
            (if ((splitOnChar '-' ids).filter (fun t => !t.isEmpty)).isEmpty then ids
              else joinSep '-'
                (mapTokens ((splitOnChar '-' ids).filter (fun t => !t.isEmpty)) m md).1)).filter
          (fun t => !t.isEmpty)).length =
        ((splitOnChar '-' ids).filter (fun t => !t.isEmpty)).length ∧
      (sufs.isEmpty = true →
        (if ((splitOnChar '-' ids).filter (fun t => !t.isEmpty)).isEmpty then ids
          else joinSep '-'
            (mapTokens ((splitOnChar '-' ids).filter (fun t => !t.isEmpty)) m md).1) ≠ []) := by
    by_cases hte : ((splitOnChar '-' ids).filter (fun t => !t.isEmpty)).isEmpty = true
    · rw [if_pos hte]
      refine ⟨fun c hc => hseg_sep c (hids_sub c hc), hids_nodol, rfl, ?_⟩
      intro hsu
      have hseg_ids : seg = ids := by
        rw [hseg_join, if_pos hsu, List.append_nil]
      intro hids_nil
      exact hne (by rw [hseg_ids, hids_nil])
    · rw [if_neg hte]
      have hclean := mapTokens_clean hm hmd htokc
      have htnn : (splitOnChar '-' ids).filter (fun t => !t.isEmpty) ≠ [] := by
        intro h
        rw [h] at hte
        exact hte rfl
      have hmlen : (mapTokens ((splitOnChar '-' ids).filter (fun t => !t.isEmpty)) m md).1.length =
          ((splitOnChar '-' ids).filter (fun t => !t.isEmpty)).length := by
        rw [mapTokens_fst, List.length_map]
      have hmne : (mapTokens ((splitOnChar '-' ids).filter (fun t => !t.isEmpty)) m md).1 ≠ [] := by
        intro h
        apply htnn
        have := congrArg List.length h
        rw [hmlen] at this
        exact List.length_eq_zero.mp this
      have hmnn : ∀ n ∈ (mapTokens ((splitOnChar '-' ids).filter (fun t => !t.isEmpty)) m md).1,
          n ≠ [] := fun n hn => (hclean n hn).2
      have hmnod : ∀ n ∈ (mapTokens ((splitOnChar '-' ids).filter (fun t => !t.isEmpty)) m md).1,
          '-' ∉ n := by
        intro n hn hdn
        have := cleanStr_iff.mp (hclean n hn).1 '-' hdn
        simp [structChar] at this
      have hsplitX : splitOnChar '-'
          (joinSep '-' (mapTokens ((splitOnChar '-' ids).filter (fun t => !t.isEmpty)) m md).1) =
          (mapTokens ((splitOnChar '-' ids).filter (fun t => !t.isEmpty)) m md).1 :=
        splitOnChar_joinSep '-' _ hmne hmnod
      refine ⟨?_, ?_, ?_, fun _ => joinSep_ne_nil hmne hmnn⟩
      · intro c hc
        cases mem_joinSep hc with
        | inl h => rw [h]; rfl
        | inr h =>
          obtain ⟨n, hn, hcn⟩ := h
          exact (structChar_false_parts (cleanStr_iff.mp (hclean n hn).1 c hcn)).1
      · intro hdol
        cases mem_joinSep hdol with
        | inl h => exact absurd h.symm (by decide)
        | inr h =>
          obtain ⟨n, hn, hcn⟩ := h
          exact (structChar_false_parts (cleanStr_iff.mp (hclean n hn).1 '$' hcn)).2.1 rfl
      · rw [hsplitX]
        rw [List.filter_eq_self.mpr]
        · exact hmlen
        · intro n hn
          simpa [List.isEmpty_iff] using hmnn n hn
  obtain ⟨hXsep, hXnodol, hXcount, hXne⟩ := hXprops
  rw [hps]
  by_cases hsu : sufs.isEmpty = true
  · have hsufs_nil : sufs = [] := List.isEmpty_iff.mp hsu
    subst hsufs_nil
    simp only [List.isEmpty_nil, if_true, List.append_nil]
    refine ⟨sepFree_iff.mpr hXsep, hXne rfl, ?_⟩
    rw [hstats_seg]
    unfold statsSeg idTokens
    rw [splitOnChar_no_sep '$' hXnodol]
    simp only [List.tail_cons, List.length_nil, List.headD_cons]
    exact Prod.ext rfl hXcount
  · have hsufs_ne : sufs ≠ [] := by
      intro h
      rw [h] at hsu
      exact hsu rfl
    rw [if_neg hsu]
    have hsplit_new : splitOnChar '$'
        ((if ((splitOnChar '-' ids).filter (fun t => !t.isEmpty)).isEmpty then ids
          else joinSep '-' (mapTokens ((splitOnChar '-' ids).filter (fun t => !t.isEmpty)) m md).1) ++
            '$' :: joinSep '$' sufs) =
        (if ((splitOnChar '-' ids).filter (fun t => !t.isEmpty)).isEmpty then ids
          else joinSep '-' (mapTokens ((splitOnChar '-' ids).filter (fun t => !t.isEmpty)) m md).1) ::
          sufs := by
      rw [splitOnChar_append_sep '$' hXnodol, splitOnChar_joinSep '$' sufs hsufs_ne hsufs_nodol]
    refine ⟨?_, ?_, ?_⟩
    · rw [sepFree_iff]
      intro c hc
      rw [List.mem_append] at hc
      cases hc with
      | inl h => exact hXsep c h
      | inr h =>
        cases h with
        | head => rfl
        | tail _ h2 =>
          cases mem_joinSep h2 with
          | inl h3 => rw [h3]; rfl
          | inr h3 =>
            obtain ⟨p, hp, hcp⟩ := h3
            exact hseg_sep c (hsufs_sub p hp c hcp)
    · intro h
      rw [List.append_eq_nil] at h
      exact absurd h.2 (by simp)
    · rw [hstats_seg]
      unfold statsSeg idTokens
      rw [hsplit_new]
      simp only [List.tail_cons, List.headD_cons]
      exact Prod.ext rfl hXcount

theorem isSepTok_false_of_sepFree {tk : List Char} (h : sepFree tk = true) :
    isSepTok tk = false := by
  cases hs : isSepTok tk with
  | false => rfl
  | true =>
    cases isSepTok_eq hs with
    | inl he => subst he; simp [sepFree, isSepChar] at h
    | inr he => subst he; simp [sepFree, isSepChar] at h

theorem procTok_nil (m md : Dict) : procTok [] m md = [] := rfl

theorem isEmpty_false_of_ne {l : List Char} (h : l ≠ []) : l.isEmpty = false := by
  cases l with
  | nil => exact absurd rfl h
  | cons a as => rfl

theorem procTok_sepFree {m md : Dict} (hm : dictClean m = true) (hmd : dictClean md = true)
    {tk : List Char} (htk : sepFree tk = true) : sepFree (procTok tk m md) = true := by
  have hs : isSepTok tk = false := isSepTok_false_of_sepFree htk
  by_cases hne : tk = []
  · subst hne
    rfl
  · simp only [procTok, hs, Bool.false_eq_true, if_false]
    exact (processSeg_good hm hmd tk htk hne).1

theorem chainOk_map_procTok {m md : Dict} (hm : dictClean m = true) (hmd : dictClean md = true) :
    ∀ gs, chainOk gs = true → chainOk (gs.map (fun tk => procTok tk m md)) = true
  | [], h => by simp [chainOk] at h
  | [t], h => by
    have ht : sepFree t = true := by simpa [chainOk] using h
    simpa [chainOk] using procTok_sepFree hm hmd ht
  | t :: s :: rest, h => by
    simp only [chainOk, Bool.and_eq_true] at h
    have hs : procTok s m md = s := by simp [procTok, h.1.2]
    have ih := chainOk_map_procTok hm hmd rest h.2
    simp only [List.map_cons, hs, chainOk, Bool.and_eq_true]
    exact ⟨⟨procTok_sepFree hm hmd h.1.1, h.1.2⟩, ih⟩

theorem processTokens_flatten (m md : Dict) :
    ∀ toks, (processTokens toks m md).1.flatten =
      (toks.map (fun tk => procTok tk m md)).flatten
  | [] => rfl
  | tk :: rest => by
    have ih := processTokens_flatten m md rest
    by_cases hs : isSepTok tk = true
    · simp [processTokens, procTok, hs, ih]
    · by_cases he : tk.isEmpty = true
      · have htk : tk = [] := List.isEmpty_iff.mp he
        subst htk
        have hnil : (processSeg ([] : List Char) m md).1 = [] := rfl
        simp [processTokens, procTok, isSepTok, ih, hnil]
      · simp [processTokens, procTok, hs, he, ih]

/-- Counterexample to claim C6: segment structure is not preserved for
every mapping index, even when every identifier token resolves.  With
the single entry ("101", "A&B") — a name that itself contains a
separator — the cell "101" resolves completely, but the output "A&B"
splits into two segments while the input has one. -/
theorem segment_structure_not_always_preserved :
    (cellTokens "101".data).all
        (fun t => (map_token t [("101".data, "A&B".data)] []).2) = true ∧
      segStats (rewriteBody "101".data [("101".data, "A&B".data)] []).1 ≠
        segStats "101".data := by
  refine ⟨by decide, by decide⟩

/-- Claim C6 as amended: for every mapping index whose stored names
are free of the structural characters `&`, `|`, `$` and `-`, and every
input body all of whose identifier tokens resolve, the segment
structure is preserved: splitting the rewritten body by the same
separator, `$`-suffix and hyphen rules yields the same number of
segments with the same per-segment suffix and identifier-token counts
as the input.  (Without the cleanliness restriction the claim fails,
see the counterexample.) -/
theorem segment_structure_preserved_clean (body : List Char) (m md : Dict)
    (hm : dictClean m = true) (hmd : dictClean md = true)
    (hres : (cellTokens body).all (fun t => (map_token t m md).2) = true) :
    segStats (rewriteBody body m md).1 = segStats body := by
  have h1 : (rewriteBody body m md).1 =
      ((splitSep body).map (fun tk => procTok tk m md)).flatten :=
    processTokens_flatten m md (splitSep body)
  have hchain := chainOk_map_procTok hm hmd (splitSep body) (chainOk_splitSep body)
  have h2 : splitSep (((splitSep body).map (fun tk => procTok tk m md)).flatten) =
      (splitSep body).map (fun tk => procTok tk m md) :=
    splitSep_flatten_chain _ hchain
  have helem : ∀ tk ∈ splitSep body, goodSeg (procTok tk m md) = goodSeg tk ∧
      (goodSeg tk = true → statsSeg (procTok tk m md) = statsSeg tk) := by
    intro tk htk
    cases splitSep_elems body tk htk with
    | inl hsep =>
      have hfix : procTok tk m md = tk := by simp [procTok, hsep]
      rw [hfix]
      exact ⟨rfl, fun _ => rfl⟩
    | inr hsf =>
      have hs : isSepTok tk = false := isSepTok_false_of_sepFree hsf
      by_cases hne : tk = []
      · subst hne
        rw [procTok_nil]
        refine ⟨rfl, fun h => ?_⟩
        simp [goodSeg] at h
      · have hgood := processSeg_good hm hmd tk hsf hne
        have hpt : procTok tk m md = (processSeg tk m md).1 := by
          simp [procTok, hs]
        refine ⟨?_, fun _ => by rw [hpt]; exact hgood.2.2⟩
        rw [hpt]
        have hg1 : goodSeg tk = true := by
          simp [goodSeg, hs, isEmpty_false_of_ne hne]
        have hg2 : goodSeg (processSeg tk m md).1 = true := by
          simp [goodSeg, isSepTok_false_of_sepFree hgood.1,
            isEmpty_false_of_ne hgood.2.1]
        rw [hg1, hg2]
  rw [h1]
  unfold segStats segsOf
  rw [h2, List.filter_map, List.map_map]
  have hfil : (splitSep body).filter (goodSeg ∘ fun tk => procTok tk m md) =
      (splitSep body).filter goodSeg := by
    apply List.filter_congr
    intro tk htk
    simpa using (helem tk htk).1
  rw [hfil]
  apply List.map_congr_left
  intro tk htk
  have hmem := List.mem_filter.mp htk
  simpa using (helem tk hmem.1).2 hmem.2

theorem segment_structure_preserved_clean_witness :
    dictClean [("101".data, "Sword".data)] = true ∧ dictClean ([] : Dict) = true ∧
      (cellTokens "101$1&101".data).all
        (fun t => (map_token t [("101".data, "Sword".data)] []).2) = true ∧
      segStats (rewriteBody "101$1&101".data [("101".data, "Sword".data)] []).1 =
        segStats "101$1&101".data :=
  ⟨by decide, by decide, by decide,
    segment_structure_preserved_clean "101$1&101".data [("101".data, "Sword".data)] []
      (by decide) (by decide) (by decide)⟩
